import Mathlib

/-!
Verification of `scripts/doc_parity.py` — a coverage checker that compares
documented HTTP endpoints against endpoints invoked by a shell client.

Strings are modelled as lists of characters (`Str`); each definition below is a
direct translation of the corresponding Python function or loop.
-/

/-- Strings are modelled as lists of characters. -/
abbrev Str := List Char

/-- Convert a Lean string literal to the `Str` model. -/
def cs (s : String) : Str := s.toList

/-- An endpoint is a `(method, path)` pair, as in the Python tuples. -/
abbrev Endpoint := Str × Str

/-! ## Path normalizer (`segmentize`) -/

/-- Python `path.split("?", 1)[0]`: everything strictly before the first `?`. -/
def takeUntil (c : Char) : Str → Str
  | [] => []
  | x :: xs => if x = c then [] else x :: takeUntil c xs

/-- Python `path.replace("(.:format)", "")`: remove every left-to-right
non-overlapping occurrence of the ten-character token `(.:format)`. -/
def removeFmt : Str → Str
  | '(' :: '.' :: ':' :: 'f' :: 'o' :: 'r' :: 'm' :: 'a' :: 't' :: ')' :: rest => removeFmt rest
  | c :: rest => c :: removeFmt rest
  | [] => []

/-- Python `path.replace("(", "")` / `.replace(")", "")` for a one-character
pattern: drop every occurrence of that character. -/
def removeChar (c : Char) (s : Str) : Str := s.filter (fun a => !(a = c : Bool))

/-- Python `segment.replace(".json", "")`: remove every left-to-right
non-overlapping occurrence of `.json`. -/
def removeJson : Str → Str
  | '.' :: 'j' :: 's' :: 'o' :: 'n' :: rest => removeJson rest
  | c :: rest => c :: removeJson rest
  | [] => []

/-- Does `.json` occur anywhere in the string (as a contiguous substring)? -/
def hasJson : Str → Bool
  | '.' :: 'j' :: 's' :: 'o' :: 'n' :: _ => true
  | _ :: rest => hasJson rest
  | [] => false

/-- Python `str.strip("/")`: drop leading and trailing `/` characters. -/
def stripChar (c : Char) (s : Str) : Str :=
  ((s.dropWhile (fun a => a = c)).reverse.dropWhile (fun a => a = c)).reverse

/-- Python `str.split(sep)` for a single-character separator; note that
splitting the empty string yields `[""]`, as in Python. -/
def splitChar (c : Char) : Str → List Str
  | [] => [[]]
  | x :: xs =>
    if x = c then [] :: splitChar c xs
    else
      match splitChar c xs with
      | s :: rest => (x :: s) :: rest
      | [] => [[x]]

/-- Python `str.isdigit` (ASCII): nonempty and all characters are digits. -/
def isDigitStr (s : Str) : Bool := !s.isEmpty && s.all Char.isDigit

/-- Python `str.startswith(c)` for a single character. -/
def headIs (c : Char) : Str → Bool
  | x :: _ => x = c
  | [] => false

/-- The canonical wildcard marker `"*"`. -/
def star : Str := ['*']

/-- The per-segment body of the `segmentize` loop: `.json` removal followed by
the wildcard classification, exactly as in the Python source. -/
def classifySeg (wildcard_vars wildcard_numbers : Bool) (seg0 : Str) : Str :=
  let seg := removeJson seg0
  let w1 := wildcard_vars &&
    (seg.any (fun a => a = '$') || headIs ':' seg || headIs '{' seg)
  let w2 := wildcard_numbers && isDigitStr seg
  let w3 := seg.any (fun a => a = ':')
  if (w1 || w2 || w3) then star else seg

/-- The `for segment in path.strip("/").split("/")` loop of `segmentize`:
empty components are skipped (`continue`), the rest are classified. -/
def segLoop (wildcard_vars wildcard_numbers : Bool) : List Str → List Str
  | [] => []
  | seg :: rest =>
    if seg.isEmpty then segLoop wildcard_vars wildcard_numbers rest
    else classifySeg wildcard_vars wildcard_numbers seg ::
      segLoop wildcard_vars wildcard_numbers rest

/-- `segmentize(path, wildcard_vars, wildcard_numbers)` from the source:
cut at `?`, remove `(.:format)`, remove parentheses, strip and split on `/`,
then run the per-segment loop. -/
def segmentize (path : Str) (wildcard_vars wildcard_numbers : Bool) : List Str :=
  let p1 := takeUntil '?' path
  let p2 := removeFmt p1
  let p3 := removeChar '(' p2
  let p4 := removeChar ')' p3
  segLoop wildcard_vars wildcard_numbers (splitChar '/' (stripChar '/' p4))

/-! ## Endpoint matcher (`endpoints_match`) -/

/-- One iteration of the comparison loop: the position passes when either side
is the wildcard marker or the two segments are equal. -/
def segPairOk (d b : Str) : Bool :=
  (d = star : Bool) || (b = star : Bool) || (d = b : Bool)

/-- The `for doc_seg, basecamp_seg in zip(...)` loop of `endpoints_match`. -/
def zipSegsMatch : List Str → List Str → Bool
  | d :: ds, b :: bs => segPairOk d b && zipSegsMatch ds bs
  | _, _ => true

/-- `endpoints_match(doc_endpoint, basecamp_endpoint)` from the source. -/
def endpoints_match (doc bc : Endpoint) : Bool :=
  if doc.1 = bc.1 then
    let ds := segmentize doc.2 true true
    let bs := segmentize bc.2 true false
    if ds.length = bs.length then zipSegsMatch ds bs else false
  else false

example : segmentize (cs "/a/:id") true true = [cs "a", cs "*"] := by decide
example : segmentize (cs "/.json") true true = [[]] := by decide
example : segmentize (cs "/a.json.b") true true = [cs "a.b"] := by decide
example : endpoints_match (cs "GET", cs "/a/:id") (cs "GET", cs "/a/7") = true := by decide
example : endpoints_match (cs "GET", cs "/7/a") (cs "GET", cs "/x/a") = true := by decide
example : endpoints_match (cs "GET", cs "/a/x") (cs "GET", cs "/a/7") = false := by decide
example : segmentize (cs "/buckets/1/recordings/2/events.json") true false
    = [cs "buckets", cs "1", cs "recordings", cs "2", cs "events"] := by decide

/-! ## Client endpoint extractor (`load_basecamp_endpoints`)

A source unit is modelled after the regex layer: its physical lines (scanned by
`ASSIGN_RE`) and its `api_*` call sites, each given as the verb together with
the raw argument text that follows the mandatory whitespace.  The two capture
rules (`API_CALL_STR_RE`, `API_CALL_VAR_RE`) are translated below as functions
on that argument text. -/

/-- The single-quote character, `Char.ofNat 39`. -/
def squote : Char := Char.ofNat 39

/-- Python regex `\s` on the relevant text. -/
def isPyWs (c : Char) : Bool :=
  c = ' ' || c = '\t' || c = '\n' || c = '\r' || c = '\x0b' || c = '\x0c'

/-- First character of regex identifiers: `[A-Za-z_]`. -/
def isIdentStart (c : Char) : Bool := c.isAlpha || c = '_'

/-- Later characters of regex identifiers: `[A-Za-z0-9_]`. -/
def isIdentChar (c : Char) : Bool := c.isAlphanum || c = '_'

/-- Does the whole string match `[A-Za-z_][A-Za-z0-9_]*`? -/
def identFull (s : Str) : Bool :=
  match s with
  | x :: xs => isIdentStart x && xs.all isIdentChar
  | [] => false

/-- Maximal-munch identifier: returns the identifier and the remaining text. -/
def parseIdent (s : Str) : Option (Str × Str) :=
  match s with
  | x :: xs =>
    if isIdentStart x then
      let p := xs.span isIdentChar
      some (x :: p.1, p.2)
    else none
  | [] => none

/-- Characters before the first occurrence of `q` (requires `q` to occur):
the semantics of `[^q]*q` scanning. -/
def scanTo (q : Char) : Str → Option Str
  | [] => none
  | x :: xs => if x = q then some [] else (scanTo q xs).map (fun t => x :: t)

/-- Like `scanTo`, but regex `.` cannot cross a newline. -/
def scanDotTo (q : Char) : Str → Option Str
  | [] => none
  | x :: xs =>
    if x = q then some []
    else if x = '\n' then none
    else (scanDotTo q xs).map (fun t => x :: t)

/-- The lazy group `(.+?)` of `ASSIGN_RE` followed by the back-referenced
quote: at least one character, up to the first closing quote on the line. -/
def lazyContent (q : Char) : Str → Option Str
  | [] => none
  | x :: xs => if x = '\n' then none else (scanDotTo q xs).map (fun t => x :: t)

/-- The optional `(?:local\s+)?` group of `ASSIGN_RE`. -/
def stripLocal (s : Str) : Option Str :=
  match s with
  | 'l' :: 'o' :: 'c' :: 'a' :: 'l' :: rest =>
    match rest with
    | c :: _ => if isPyWs c then some (rest.dropWhile isPyWs) else none
    | [] => none
  | _ => none

/-- `ASSIGN_RE` from the identifier onwards:
`([A-Za-z_][A-Za-z0-9_]*)\s*=\s*(["\x27])(.+?)\2`. -/
def parseAssignCore (s : Str) : Option (Str × Str) :=
  match parseIdent s with
  | some (name, rest) =>
    match rest.dropWhile isPyWs with
    | '=' :: r2 =>
      match r2.dropWhile isPyWs with
      | q :: r4 =>
        if q = '"' || q = squote then (lazyContent q r4).map (fun v => (name, v))
        else none
      | [] => none
    | _ => none
  | none => none

/-- `ASSIGN_RE.match(line)`: leading whitespace, an optional `local` qualifier
(with regex backtracking when the qualified parse fails), then the core. -/
def parseAssignLine (line : Str) : Option (Str × Str) :=
  let s := line.dropWhile isPyWs
  match stripLocal s with
  | some s2 =>
    match parseAssignCore s2 with
    | some r => some r
    | none => parseAssignCore s
  | none => parseAssignCore s

/-- Insertion-ordered deduplication (the role Python sets play here). -/
def dedupFirstAux {α : Type} [DecidableEq α] (seen : List α) : List α → List α
  | [] => []
  | e :: es =>
    if e ∈ seen then dedupFirstAux seen es
    else e :: dedupFirstAux (e :: seen) es

/-- The unit's `assignments` table looked up at variable `x`: the distinct
quoted literal values assigned to `x` on some line and starting with `/`. -/
def assignedPaths (lines : List Str) (x : Str) : List Str :=
  dedupFirstAux []
    (((lines.filterMap parseAssignLine).filter
      (fun nv => (nv.1 = x : Bool) && headIs '/' nv.2)).map (fun nv => nv.2))

/-- The quoted-string capture of `API_CALL_STR_RE`:
`("([^"]+)"|\x27([^\x27]+)\x27)` applied to the argument text. -/
def strCaptured (arg : Str) : Option Str :=
  match arg with
  | c :: rest =>
    if c = '"' then
      (scanTo '"' rest).bind (fun t => if t.isEmpty then none else some t)
    else if c = squote then
      (scanTo squote rest).bind (fun t => if t.isEmpty then none else some t)
    else none
  | [] => none

/-- `identFull` allowing one trailing `}` (the optional `\x7d?` of the
bare-variable regex). -/
def identOptBrace (b : Str) : Bool :=
  identFull b ||
    (match b.reverse with
     | '}' :: r => identFull r.reverse
     | _ => false)

/-- `re.fullmatch(r"\$\{?[A-Za-z_][A-Za-z0-9_]*\}?", path)`: the captured
path is just a bare variable-reference token. -/
def isBareVar (s : Str) : Bool :=
  match s with
  | '$' :: rest =>
    identOptBrace rest ||
      (match rest with
       | '{' :: r => identOptBrace r
       | _ => false)
  | _ => false

/-- The variable-token alternation of `API_CALL_VAR_RE`:
`(\$[A-Za-z_][A-Za-z0-9_]*|\$\{[A-Za-z_][A-Za-z0-9_]*\})`. -/
def parseVarToken (s : Str) : Option Str :=
  match s with
  | '$' :: rest =>
    if headIs '{' rest then
      match parseIdent (rest.drop 1) with
      | some nr =>
        match nr.2 with
        | c2 :: _ => if c2 = '}' then some ('$' :: '{' :: (nr.1 ++ ['}'])) else none
        | [] => none
      | none => none
    else (parseIdent rest).map (fun p => '$' :: p.1)
  | _ => none

/-- The character set of Python `strip("$\x7b\x7d")`. -/
def isDollarBrace (c : Char) : Bool := c = '$' || c = '{' || c = '}'

/-- `var_token.strip("$\x7b\x7d").lstrip("$")` from the source. -/
def varNameOfToken (t : Str) : Str :=
  (((t.dropWhile isDollarBrace).reverse.dropWhile isDollarBrace).reverse).dropWhile
    (fun a => a = '$')

/-- `API_CALL_VAR_RE` applied to the argument text (its optional leading
`"` consumed when present), yielding the referenced variable name. -/
def varName (arg : Str) : Option Str :=
  (parseVarToken (match arg with | '"' :: r => r | r => r)).map varNameOfToken

/-- The six verb tags of the `api_*` call functions. -/
inductive Verb
  | get | post | put | patch | delete | upload
deriving DecidableEq

/-- `match.group(1).upper()` with `UPLOAD` normalized to `POST`. -/
def methodOf : Verb → Str
  | .get => cs "GET"
  | .post => cs "POST"
  | .put => cs "PUT"
  | .patch => cs "PATCH"
  | .delete => cs "DELETE"
  | .upload => cs "POST"

/-- One client source unit: its lines and its `api_*` call sites
(verb, argument text after the whitespace). -/
structure SourceUnit where
  lines : List Str
  calls : List (Verb × Str)

/-- The contribution of one call site through the string-literal rule:
capture the quoted path, dropping it when it is a bare variable token. -/
def strEndpoint (v : Verb) (arg : Str) : Option Endpoint :=
  match strCaptured arg with
  | some p => if isBareVar p then none else some (methodOf v, p)
  | none => none

/-- The contribution of one call site through the variable-reference rule:
resolve the variable through the unit's assignment table, one endpoint per
recorded literal (nothing when the variable was never assigned a path). -/
def varEndpoints (lines : List Str) (v : Verb) (arg : Str) : List Endpoint :=
  match varName arg with
  | some x => (assignedPaths lines x).map (fun p => (methodOf v, p))
  | none => []

/-- All endpoints contributed by one unit (both capture rules, as a set). -/
def unitEndpoints (u : SourceUnit) : Finset Endpoint :=
  (u.calls.filterMap (fun c => strEndpoint c.1 c.2)).toFinset ∪
  (u.calls.flatMap (fun c => varEndpoints u.lines c.1 c.2)).toFinset

/-- `load_basecamp_endpoints`: the union over all scanned units. -/
def load_basecamp_endpoints (units : List SourceUnit) : Finset Endpoint :=
  units.foldl (fun acc u => acc ∪ unitEndpoints u) ∅

example : parseAssignLine (cs "  local URL=\"/a/b\"") = some (cs "URL", cs "/a/b") := by decide
example : parseAssignLine (cs "URL = \"/c\"  # note") = some (cs "URL", cs "/c") := by decide
example : parseAssignLine (cs "local = \"/c\"") = some (cs "local", cs "/c") := by decide
example : parseAssignLine (cs "echo hi") = none := by decide
example : varName (cs "$FOO") = some (cs "FOO") := by decide
example : varName (cs "\"$FOO\"") = some (cs "FOO") := by decide
example : isBareVar (cs "$FOO") = true := by decide
example : isBareVar (cs "/a/$FOO") = false := by decide
example : strCaptured (cs "\"$FOO\" extra") = some (cs "$FOO") := by decide
example : strEndpoint .get (cs "\"$FOO\"") = none := by decide
example : strEndpoint .get (cs "\"/a/b\"") = some (cs "GET", cs "/a/b") := by decide
example :
    unitEndpoints ⟨[cs "P=\"/a\"", cs "P=\"/b\""], [(.get, cs "$P")]⟩
      = {(cs "GET", cs "/a"), (cs "GET", cs "/b")} := by decide

/-! ## Documentation extractor (`load_doc_endpoints`) and aggregator (`main`)

The documentation extractor is modelled from the regex layer as well: a file is
its name together with the list of raw `(method, path)` captures that
`DOC_ENDPOINT_RE` produced over its text, in order of occurrence. -/

/-- The backtick character, `Char.ofNat 96`. -/
def btick : Char := Char.ofNat 96

/-- Python `path.rstrip("\x60,.")`: trim trailing backticks, commas, dots. -/
def rstripPunct (p : Str) : Str :=
  (p.reverse.dropWhile (fun c => c = btick || c = ',' || c = '.')).reverse

/-- Python `str.upper()` on the captured method keyword. -/
def upperStr (s : Str) : Str := s.map Char.toUpper

/-- The per-file loop of `load_doc_endpoints`: upper-case the method, trim
trailing punctuation from the path, deduplicate keeping first occurrences. -/
def processDocMatches (ms : List (Str × Str)) : List Endpoint :=
  dedupFirstAux [] (ms.map (fun mp => (upperStr mp.1, rstripPunct mp.2)))

/-- `load_doc_endpoints`: one entry per file, in the given (sorted) file
order; a file whose processed endpoint list is empty is omitted. -/
def load_doc_endpoints (files : List (Str × List (Str × Str))) :
    List (Str × List Endpoint) :=
  files.filterMap (fun f =>
    let es := processDocMatches f.2
    if es.isEmpty then none else some (f.1, es))

/-- The skip-list filter of `main`: drop sections named in the skip set. -/
def scoredSections (files : List (Str × List (Str × Str))) (skip : List Str) :
    List (Str × List Endpoint) :=
  (load_doc_endpoints files).filter (fun s => !(skip.contains s.1))

/-- The existential matching tally of `main`: how many documented endpoints
are matched by at least one client endpoint. -/
def countMatched (docs : List Endpoint) (client : List Endpoint) : Nat :=
  (docs.filter (fun e => client.any (fun b => endpoints_match e b))).length

/-- The `unique_docs` accumulation of `main`: first-seen global
deduplication over the concatenated section endpoint lists. -/
def uniqueDocs (sections : List (List Endpoint)) : List Endpoint :=
  dedupFirstAux [] sections.flatten

/-- The sum of the per-section matched counts (what the global matched count
is *not*, in general). -/
def sectionMatchedSum (sections : List (List Endpoint)) (client : List Endpoint) : Nat :=
  (sections.map (fun s => countMatched s client)).sum

/-- `section_stats` from `main`: per section, `(matched, total)`. -/
def section_stats (sections : List (Str × List Endpoint)) (client : List Endpoint) :
    List (Nat × Nat) :=
  sections.map (fun s => (countMatched s.2 client, s.2.length))

/-- Number of sections classified `full` (`m == t`). -/
def numFull (stats : List (Nat × Nat)) : Nat :=
  (stats.filter (fun mt => (mt.1 = mt.2 : Bool))).length

/-- Number of sections classified with `0 < m < t`. -/
def numPart (stats : List (Nat × Nat)) : Nat :=
  (stats.filter (fun mt => (0 < mt.1 : Bool) && (mt.1 < mt.2 : Bool))).length

/-- Number of sections classified `zero` (`m == 0`). -/
def numZero (stats : List (Nat × Nat)) : Nat :=
  (stats.filter (fun mt => (mt.1 = 0 : Bool))).length

/-- Spec-side predicate: the stat satisfies exactly one of the three
classification conditions used by `main`. -/
def exactlyOneClass (mt : Nat × Nat) : Bool :=
  let f := (mt.1 = mt.2 : Bool)
  let p := (0 < mt.1 : Bool) && (mt.1 < mt.2 : Bool)
  let z := (mt.1 = 0 : Bool)
  (f && !p && !z) || (!f && p && !z) || (!f && !p && z)

/-- A concrete documented endpoint used in the duplicated-sections example. -/
def exEndpoint : Endpoint := (cs "GET", cs "/a")

/-- Two sections documenting the same endpoint. -/
def exSections : List (List Endpoint) := [[exEndpoint], [exEndpoint]]

/-- A client set invoking that endpoint. -/
def exClient : List Endpoint := [exEndpoint]

example : countMatched (uniqueDocs exSections) exClient = 1 := by decide
example : sectionMatchedSum exSections exClient = 2 := by decide
example : load_doc_endpoints [(cs "a.md", []), (cs "b.md", [(cs "get", cs "/x.")])]
    = [(cs "b.md", [(cs "GET", cs "/x")])] := by decide

/-! ## Helper lemmas about the matcher and normalizer -/

theorem segPairOk_iff (d b : Str) :
    segPairOk d b = true ↔ (d = star ∨ b = star ∨ d = b) := by
  simp [segPairOk, Bool.or_eq_true, decide_eq_true_eq, or_assoc]

theorem zipSegsMatch_iff (ds : List Str) :
    ∀ bs : List Str, ds.length = bs.length →
      (zipSegsMatch ds bs = true ↔
        List.Forall₂ (fun a b => a = star ∨ b = star ∨ a = b) ds bs) := by
  induction ds with
  | nil =>
    intro bs h
    cases bs with
    | nil => simp [zipSegsMatch]
    | cons b bs => simp at h
  | cons d ds ih =>
    intro bs h
    cases bs with
    | nil => simp at h
    | cons b bs =>
      have h2 : ds.length = bs.length := by simpa using h
      simp only [zipSegsMatch, Bool.and_eq_true, List.forall₂_cons]
      rw [ih bs h2, segPairOk_iff]

theorem classifySeg_tt_tf (s : Str) :
    classifySeg true true s = classifySeg true false s ∨
      classifySeg true true s = star := by
  unfold classifySeg
  cases h1 : ((removeJson s).any (fun a => a = '$') || headIs ':' (removeJson s)
      || headIs '{' (removeJson s)) <;>
    cases h2 : isDigitStr (removeJson s) <;>
    cases h3 : ((removeJson s).any (fun a => a = ':')) <;>
    simp [h1, h2, h3]

theorem segLoop_refl (comps : List Str) :
    (segLoop true true comps).length = (segLoop true false comps).length ∧
      zipSegsMatch (segLoop true true comps) (segLoop true false comps) = true := by
  induction comps with
  | nil => simp [segLoop, zipSegsMatch]
  | cons seg rest ih =>
    by_cases h : seg.isEmpty
    · simpa [segLoop, h] using ih
    · simp only [segLoop, h, if_neg, Bool.false_eq_true, not_false_iff]
      refine ⟨by simpa using ih.1, ?_⟩
      simp only [zipSegsMatch, Bool.and_eq_true]
      refine ⟨?_, ih.2⟩
      rcases classifySeg_tt_tf seg with he | hs
      · rw [he, segPairOk_iff]
        right; right; rfl
      · rw [hs, segPairOk_iff]
        left; rfl

theorem segLoop_eq_filter_map (w n : Bool) (comps : List Str) :
    segLoop w n comps = (comps.filter (fun s => !s.isEmpty)).map (classifySeg w n) := by
  induction comps with
  | nil => simp [segLoop]
  | cons seg rest ih =>
    by_cases h : seg.isEmpty
    · simp [segLoop, h, ih]
    · simp [segLoop, h, ih]

theorem removeJson_of_not_has (s : Str) (h : hasJson s = false) : removeJson s = s := by
  induction s using removeJson.induct with
  | case1 rest ih => simp [hasJson] at h
  | case2 c rest h1 ih =>
    rw [hasJson.eq_2 _ _ h1] at h
    rw [removeJson.eq_2 _ _ h1, ih h]
  | case3 => rfl

/-! ## Claim theorems: normalizer and matcher -/

/-- C1: `endpoints_match(doc, client)` returns true iff the methods are
equal, the documented path normalized with both wildcard flags and the client
path normalized with only the parameter-wildcard flag yield segment sequences
of equal length, and at every position either side is the wildcard marker or
the segments are identical. -/
theorem endpoints_match_characterization (doc bc : Endpoint) :
    endpoints_match doc bc = true ↔
      (doc.1 = bc.1 ∧
       (segmentize doc.2 true true).length = (segmentize bc.2 true false).length ∧
       List.Forall₂ (fun a b => a = star ∨ b = star ∨ a = b)
         (segmentize doc.2 true true) (segmentize bc.2 true false)) := by
  unfold endpoints_match
  by_cases h1 : doc.1 = bc.1
  · rw [if_pos h1]
    by_cases h2 : (segmentize doc.2 true true).length = (segmentize bc.2 true false).length
    · rw [if_pos h2, zipSegsMatch_iff _ _ h2]
      constructor
      · intro hz
        exact ⟨h1, h2, hz⟩
      · intro hz
        exact hz.2.2
    · rw [if_neg h2]
      constructor
      · intro hz
        exact absurd hz (by simp)
      · intro hz
        exact absurd hz.2.1 h2
  · rw [if_neg h1]
    constructor
    · intro hz
      exact absurd hz (by simp)
    · intro hz
      exact absurd hz.1 h1

/-- C9: matching is reflexive — a client invocation byte-identical to the
documented endpoint always matches. -/
theorem endpoints_match_refl (m p : Str) : endpoints_match (m, p) (m, p) = true := by
  have h := segLoop_refl (splitChar '/' (stripChar '/'
    (removeChar ')' (removeChar '(' (removeFmt (takeUntil '?' p))))))
  simp only [endpoints_match, segmentize]
  rw [if_pos h.1]
  exact h.2

/-- C2 counterexample: the claim asserts
`matches(("GET","/7/a"), ("GET","/x/a"))` is false, but the code wildcards the
numeric documented segment `7`, so the match succeeds. -/
theorem doc_numeric_wildcard_cex :
    endpoints_match (cs "GET", cs "/7/a") (cs "GET", cs "/x/a") = true := by decide

/-- C2 amended: numeric literal segments on the *client* side are never
wildcarded — `matches(("GET","/a/:id"), ("GET","/a/7"))` is true while
`matches(("GET","/a/x"), ("GET","/a/7"))` is false — but numeric *documented*
segments are wildcarded, so `matches(("GET","/7/a"), ("GET","/x/a"))` is true. -/
theorem client_numeric_literal_amended :
    endpoints_match (cs "GET", cs "/a/:id") (cs "GET", cs "/a/7") = true ∧
    endpoints_match (cs "GET", cs "/a/x") (cs "GET", cs "/a/7") = false ∧
    endpoints_match (cs "GET", cs "/7/a") (cs "GET", cs "/x/a") = true := by decide

/-- C3 counterexample: the claim asserts a mid-segment `.json` occurrence
(e.g. in `a.json.b`) is not removed, but the code removes every occurrence. -/
theorem json_mid_segment_cex :
    segmentize (cs "/a.json.b") true true = [cs "a.b"] := by decide

/-- C3 amended: the per-segment step removes every left-to-right
non-overlapping occurrence of `.json` (mid-segment occurrences included, e.g.
`/a.json.b` normalizes to `["a.b"]`); a segment containing no occurrence of
`.json` is left unchanged by this step. -/
theorem json_removal_amended (w n : Bool) (s : Str) (h : hasJson s = false) :
    removeJson s = s ∧ segmentize (cs "/a.json.b") w n = [cs "a.b"] := by
  refine ⟨removeJson_of_not_has s h, ?_⟩
  cases w <;> cases n <;> decide

/-- Witness for `json_removal_amended` at a concrete segment. -/
theorem json_removal_amended_witness :
    hasJson (cs "abc") = false ∧
    (removeJson (cs "abc") = cs "abc" ∧
      segmentize (cs "/a.json.b") true true = [cs "a.b"]) :=
  ⟨by decide, json_removal_amended true true (cs "abc") (by decide)⟩

/-- C4 counterexample: the claim asserts a non-empty result has non-empty
first and last segments, but `/.json` normalizes to a single empty segment
(the `.json` removal runs after the empty-component filter). -/
theorem empty_segment_cex : segmentize (cs "/.json") true true = [[]] := by decide

/-- C4 amended: empty components produced by splitting on `/` (leading,
trailing, or repeated slashes) are discarded before classification — the
result is exactly the classification map over the non-empty slash components;
a returned segment may nevertheless itself be empty when `.json` removal
consumes the entire component. -/
theorem segment_filter_amended (p : Str) (w n : Bool) :
    segmentize p w n =
      ((splitChar '/' (stripChar '/'
          (removeChar ')' (removeChar '(' (removeFmt (takeUntil '?' p)))))).filter
        (fun s => !s.isEmpty)).map (classifySeg w n) := by
  simp only [segmentize]
  exact segLoop_eq_filter_map w n _

/-! ## Helper lemmas about deduplication and counting -/

theorem mem_dedupFirstAux {α : Type} [DecidableEq α] (l : List α) :
    ∀ (seen : List α) (e : α),
      e ∈ dedupFirstAux seen l ↔ (e ∈ l ∧ e ∉ seen) := by
  induction l with
  | nil => intro seen e; simp [dedupFirstAux]
  | cons a as ih =>
    intro seen e
    unfold dedupFirstAux
    by_cases ha : a ∈ seen
    · rw [if_pos ha, ih]
      constructor
      · rintro ⟨h1, h2⟩
        exact ⟨List.mem_cons_of_mem _ h1, h2⟩
      · rintro ⟨h1, h2⟩
        rcases List.mem_cons.mp h1 with rfl | h1
        · exact absurd ha h2
        · exact ⟨h1, h2⟩
    · rw [if_neg ha]
      simp only [List.mem_cons, ih]
      by_cases hea : e = a <;> simp [hea, ha]
      
theorem nodup_dedupFirstAux {α : Type} [DecidableEq α] (l : List α) :
    ∀ seen : List α, (dedupFirstAux seen l).Nodup := by
  induction l with
  | nil => intro seen; simp [dedupFirstAux]
  | cons a as ih =>
    intro seen
    unfold dedupFirstAux
    by_cases ha : a ∈ seen
    · rw [if_pos ha]; exact ih seen
    · rw [if_neg ha]
      refine List.nodup_cons.mpr ⟨fun hc => ?_, ih (a :: seen)⟩
      rw [mem_dedupFirstAux] at hc
      exact hc.2 (List.mem_cons_self _ _)

theorem mem_uniqueDocs (sections : List (List Endpoint)) (e : Endpoint) :
    e ∈ uniqueDocs sections ↔ e ∈ sections.flatten := by
  unfold uniqueDocs
  rw [mem_dedupFirstAux]
  simp

theorem toFinset_uniqueDocs (sections : List (List Endpoint)) :
    (uniqueDocs sections).toFinset = sections.flatten.toFinset := by
  ext e
  simp [mem_uniqueDocs]

theorem countMatched_mono (docs : List Endpoint) (c1 c2 : List Endpoint)
    (h : ∀ e ∈ c1, e ∈ c2) : countMatched docs c1 ≤ countMatched docs c2 := by
  unfold countMatched
  induction docs with
  | nil => simp
  | cons d ds ih =>
    simp only [List.filter_cons]
    by_cases hd : (c1.any (fun b => endpoints_match d b)) = true
    · have hd2 : (c2.any (fun b => endpoints_match d b)) = true := by
        rw [List.any_eq_true] at hd ⊢
        obtain ⟨b, hb, hmb⟩ := hd
        exact ⟨b, h b hb, hmb⟩
      simp only [hd, hd2, if_true, List.length_cons]
      omega
    · rw [Bool.not_eq_true] at hd
      by_cases hd2 : (c2.any (fun b => endpoints_match d b)) = true
      · simp only [hd, hd2, if_true, Bool.false_eq_true, if_false, List.length_cons]
        omega
      · rw [Bool.not_eq_true] at hd2
        simp only [hd, hd2, Bool.false_eq_true, if_false]
        exact ih

/-! ## Claim theorems: aggregation -/

/-- C7: matching is monotone in the client endpoint set — enlarging the
client set never decreases a per-section matched count or the global one. -/
theorem matched_count_monotone (c1 c2 : List Endpoint)
    (sections : List (List Endpoint)) (h : ∀ e ∈ c1, e ∈ c2) :
    (∀ docs ∈ sections, countMatched docs c1 ≤ countMatched docs c2) ∧
      countMatched (uniqueDocs sections) c1 ≤ countMatched (uniqueDocs sections) c2 :=
  ⟨fun docs _ => countMatched_mono docs c1 c2 h,
   countMatched_mono (uniqueDocs sections) c1 c2 h⟩

/-- Witness for `matched_count_monotone` at concrete client sets. -/
theorem matched_count_monotone_witness :
    (∀ e ∈ ([(cs "GET", cs "/a")] : List Endpoint),
        e ∈ ([(cs "GET", cs "/a"), (cs "POST", cs "/b")] : List Endpoint)) ∧
    ((∀ docs ∈ [[(cs "GET", cs "/a")], [(cs "POST", cs "/b")]],
        countMatched docs [(cs "GET", cs "/a")]
          ≤ countMatched docs [(cs "GET", cs "/a"), (cs "POST", cs "/b")]) ∧
      countMatched (uniqueDocs [[(cs "GET", cs "/a")], [(cs "POST", cs "/b")]])
          [(cs "GET", cs "/a")]
        ≤ countMatched (uniqueDocs [[(cs "GET", cs "/a")], [(cs "POST", cs "/b")]])
          [(cs "GET", cs "/a"), (cs "POST", cs "/b")]) :=
  ⟨by decide, matched_count_monotone _ _ _ (by decide)⟩

/-- C8: the global total is the number of distinct documented `(method,
path)` pairs across the scored sections (each counted once even when it
recurs), the global matched count is the number of those distinct pairs
matched by some client endpoint, and — as the concrete duplicated-section
example shows — the global matched count is not the sum of the per-section
matched counts. -/
theorem global_counts_dedup (sections : List (List Endpoint))
    (client : List Endpoint) :
    (uniqueDocs sections).length = sections.flatten.toFinset.card ∧
    countMatched (uniqueDocs sections) client
      = (sections.flatten.toFinset.filter
          (fun e => client.any (fun b => endpoints_match e b) = true)).card ∧
    countMatched (uniqueDocs exSections) exClient = 1 ∧
    sectionMatchedSum exSections exClient = 2 := by
  have hnd : (uniqueDocs sections).Nodup := nodup_dedupFirstAux _ _
  refine ⟨?_, ?_, by decide, by decide⟩
  · rw [← toFinset_uniqueDocs, List.toFinset_card_of_nodup hnd]
  · unfold countMatched
    have hndf : ((uniqueDocs sections).filter
        (fun e => client.any (fun b => endpoints_match e b))).Nodup :=
      hnd.filter _
    rw [← List.toFinset_card_of_nodup hndf, List.toFinset_filter,
      toFinset_uniqueDocs]

/-! ## Helper lemmas for section classification -/

theorem exactlyOneClass_of_bounds (mt : Nat × Nat) (h1 : mt.1 ≤ mt.2)
    (h2 : 1 ≤ mt.2) : exactlyOneClass mt = true := by
  unfold exactlyOneClass
  by_cases hf : mt.1 = mt.2 <;> by_cases hz : mt.1 = 0 <;>
    simp [hf, hz] <;> omega

theorem class_partition_aux (l : List (Nat × Nat))
    (h : ∀ mt ∈ l, mt.1 ≤ mt.2 ∧ 1 ≤ mt.2) :
    numFull l + numPart l + numZero l = l.length := by
  induction l with
  | nil => simp [numFull, numPart, numZero]
  | cons a l ih =>
    obtain ⟨ha1, ha2⟩ := h a (List.mem_cons_self _ _)
    have hl : ∀ mt ∈ l, mt.1 ≤ mt.2 ∧ 1 ≤ mt.2 :=
      fun mt hm => h mt (List.mem_cons_of_mem _ hm)
    have ihl := ih hl
    unfold numFull numPart numZero at ihl ⊢
    simp only [List.filter_cons, Bool.and_eq_true, decide_eq_true_eq]
    by_cases h1 : a.1 = a.2
    · have hp : ¬(0 < a.1 ∧ a.1 < a.2) := by omega
      have h3 : ¬(a.1 = 0) := by omega
      rw [if_pos h1, if_neg hp, if_neg h3]
      simp only [List.length_cons]
      omega
    · by_cases h3 : a.1 = 0
      · have hp : ¬(0 < a.1 ∧ a.1 < a.2) := by omega
        rw [if_neg h1, if_neg hp, if_pos h3]
        simp only [List.length_cons]
        omega
      · have hp : 0 < a.1 ∧ a.1 < a.2 := by omega
        rw [if_neg h1, if_pos hp, if_neg h3]
        simp only [List.length_cons]
        omega

theorem scored_sections_nonempty (files : List (Str × List (Str × Str)))
    (skip : List Str) :
    ∀ s ∈ scoredSections files skip, s.2 ≠ [] := by
  intro s hs
  have hs2 : s ∈ load_doc_endpoints files := List.mem_of_mem_filter hs
  rw [load_doc_endpoints, List.mem_filterMap] at hs2
  obtain ⟨f, hf, heq⟩ := hs2
  simp only at heq
  by_cases he : (processDocMatches f.2).isEmpty = true
  · rw [if_pos he] at heq
    exact absurd heq (by simp)
  · rw [if_neg he] at heq
    have hinj : s.2 = processDocMatches f.2 := by
      cases heq
      rfl
    rw [hinj]
    intro hc
    rw [hc] at he
    exact he rfl

/-! ## Claim theorem: section classification -/

/-- C10: every scored section has at least one endpoint (empty files are
omitted at extraction), each scored section satisfies exactly one of the
three classification conditions, and the full/partial/zero class counts sum
to the number of scored sections. -/
theorem section_classes_partition (files : List (Str × List (Str × Str)))
    (skip : List Str) (client : List Endpoint) :
    ((scoredSections files skip).all (fun s => !s.2.isEmpty)) = true ∧
    ((section_stats (scoredSections files skip) client).all exactlyOneClass) = true ∧
    numFull (section_stats (scoredSections files skip) client)
        + numPart (section_stats (scoredSections files skip) client)
        + numZero (section_stats (scoredSections files skip) client)
      = (scoredSections files skip).length := by
  have hne := scored_sections_nonempty files skip
  have hstats : ∀ mt ∈ section_stats (scoredSections files skip) client,
      mt.1 ≤ mt.2 ∧ 1 ≤ mt.2 := by
    intro mt hm
    rw [section_stats, List.mem_map] at hm
    obtain ⟨s, hs, rfl⟩ := hm
    constructor
    · exact List.length_filter_le _ _
    · exact List.length_pos.mpr (hne s hs)
  refine ⟨?_, ?_, ?_⟩
  · rw [List.all_eq_true]
    intro s hs
    cases hq : s.2 with
    | nil => exact absurd hq (hne s hs)
    | cons x xs => simp [hq]
  · rw [List.all_eq_true]
    intro mt hm
    exact exactlyOneClass_of_bounds mt (hstats mt hm).1 (hstats mt hm).2
  · rw [class_partition_aux _ hstats]
    simp [section_stats]

/-! ## Helper lemmas for the client extractor claims -/

theorem identStart_isIdentChar (c : Char) (h : isIdentStart c = true) :
    isIdentChar c = true := by
  simp only [isIdentStart, Bool.or_eq_true, decide_eq_true_eq] at h
  simp only [isIdentChar, Char.isAlphanum, Bool.or_eq_true, decide_eq_true_eq]
  tauto

theorem identChar_ne (c : Char) (h : isIdentChar c = true) :
    c ≠ '"' ∧ c ≠ '$' ∧ c ≠ '{' ∧ c ≠ '}' := by
  refine ⟨?_, ?_, ?_, ?_⟩ <;> rintro rfl <;> exact absurd h (by decide)

theorem identFull_mem_identChar (x : Str) (hx : identFull x = true) :
    ∀ c ∈ x, isIdentChar c = true := by
  cases x with
  | nil => exact absurd hx (by decide)
  | cons a as =>
    simp only [identFull, Bool.and_eq_true] at hx
    intro c hc
    rcases List.mem_cons.mp hc with rfl | hc
    · exact identStart_isIdentChar c hx.1
    · exact (List.all_eq_true.mp hx.2) c hc

theorem scanTo_append (q : Char) (s : Str) (h : ∀ c ∈ s, c ≠ q) :
    scanTo q (s ++ [q]) = some s := by
  induction s with
  | nil => simp [scanTo]
  | cons a as ih =>
    have ha : a ≠ q := h a (List.mem_cons_self _ _)
    have ih2 := ih (fun c hc => h c (List.mem_cons_of_mem _ hc))
    simp [scanTo, if_neg ha, ih2]

theorem takeWhile_append_of_all (p : Char → Bool) (as rest : Str)
    (h : ∀ c ∈ as, p c = true) :
    (as ++ rest).takeWhile p = as ++ rest.takeWhile p := by
  induction as with
  | nil => simp
  | cons a tl ih =>
    have ha : p a = true := h a (List.mem_cons_self _ _)
    simp only [List.cons_append, List.takeWhile_cons, ha, if_true]
    rw [ih (fun c hc => h c (List.mem_cons_of_mem _ hc))]

theorem dropWhile_append_of_all (p : Char → Bool) (as rest : Str)
    (h : ∀ c ∈ as, p c = true) :
    (as ++ rest).dropWhile p = rest.dropWhile p := by
  induction as with
  | nil => simp
  | cons a tl ih =>
    have ha : p a = true := h a (List.mem_cons_self _ _)
    simp only [List.cons_append, List.dropWhile_cons, ha, if_true]
    exact ih (fun c hc => h c (List.mem_cons_of_mem _ hc))

theorem parseIdent_ident_append (x : Str) (rest : Str) (hx : identFull x = true)
    (hr : ∀ c, rest.head? = some c → isIdentChar c = false) :
    parseIdent (x ++ rest) = some (x, rest) := by
  cases x with
  | nil => exact absurd hx (by decide)
  | cons a as =>
    simp only [identFull, Bool.and_eq_true] at hx
    simp only [List.cons_append, parseIdent, hx.1, if_true]
    have hspan : (as ++ rest).span isIdentChar = (as, rest) := by
      rw [List.span_eq_take_drop]
      have hall : ∀ c ∈ as, isIdentChar c = true := List.all_eq_true.mp hx.2
      rw [takeWhile_append_of_all _ _ _ hall, dropWhile_append_of_all _ _ _ hall]
      cases rest with
      | nil => simp
      | cons r rs =>
        have hrc : isIdentChar r = false := hr r rfl
        simp [List.takeWhile_cons, List.dropWhile_cons, hrc]
    rw [hspan]

theorem load_single_var_call (lines : List Str) (v : Verb) (arg x : Str)
    (hv : varName arg = some x) (hs : strEndpoint v arg = none) :
    load_basecamp_endpoints [⟨lines, [(v, arg)]⟩]
      = ((assignedPaths lines x).map (fun p => (methodOf v, p))).toFinset := by
  simp only [load_basecamp_endpoints, List.foldl_cons, List.foldl_nil,
    Finset.empty_union]
  unfold unitEndpoints
  simp only [List.filterMap_cons, List.filterMap_nil, hs, List.flatMap_cons,
    List.flatMap_nil, List.append_nil, varEndpoints, hv]
  simp

theorem nodup_mapped_paths (lines : List Str) (v : Verb) (x : Str) :
    ((assignedPaths lines x).map (fun p => (methodOf v, p))).Nodup := by
  refine List.Nodup.map ?_ (nodup_dedupFirstAux _ _)
  intro p q hpq
  exact ((Prod.mk.injEq _ _ _ _).mp hpq).2

/-! ## Claim theorems: client extractor -/

/-- C5: within one unit, a variable assigned `k` distinct path literals and
then referenced as the argument of a verb-tagged call contributes exactly
those `k` paths (paired with the call's method) — and when the variable was
never assigned a path literal, it contributes nothing at all. -/
theorem var_assignment_resolution (lines : List Str) (v : Verb) (arg x : Str)
    (hv : varName arg = some x) (hs : strEndpoint v arg = none) :
    load_basecamp_endpoints [⟨lines, [(v, arg)]⟩]
        = ((assignedPaths lines x).map (fun p => (methodOf v, p))).toFinset ∧
    (load_basecamp_endpoints [⟨lines, [(v, arg)]⟩]).card
        = (assignedPaths lines x).length := by
  have hunit := load_single_var_call lines v arg x hv hs
  refine ⟨hunit, ?_⟩
  rw [hunit, List.toFinset_card_of_nodup (nodup_mapped_paths lines v x),
    List.length_map]

/-- Witness for `var_assignment_resolution`: the variable `P` is assigned two
distinct paths and referenced by an unquoted `$P` call argument. -/
theorem var_assignment_resolution_witness :
    varName (cs "$P") = some (cs "P") ∧
    strEndpoint .get (cs "$P") = none ∧
    (load_basecamp_endpoints [⟨[cs "P=\"/a\"", cs "P=\"/b\""], [(.get, cs "$P")]⟩]
        = ((assignedPaths [cs "P=\"/a\"", cs "P=\"/b\""] (cs "P")).map
            (fun p => (methodOf .get, p))).toFinset ∧
      (load_basecamp_endpoints
          [⟨[cs "P=\"/a\"", cs "P=\"/b\""], [(.get, cs "$P")]⟩]).card
        = (assignedPaths [cs "P=\"/a\"", cs "P=\"/b\""] (cs "P")).length) :=
  ⟨by decide, by decide,
    var_assignment_resolution _ .get _ _ (by decide) (by decide)⟩

theorem dropWhile_eq_self_of_none (p : Char → Bool) (l : Str)
    (h : ∀ c ∈ l, p c = false) : l.dropWhile p = l := by
  cases l with
  | nil => rfl
  | cons b bs => simp [List.dropWhile_cons, h b (List.mem_cons_self _ _)]

theorem varNameOfToken_dollar_ident (x : Str) (hx : identFull x = true) :
    varNameOfToken ('$' :: x) = x := by
  have hchars := identFull_mem_identChar x hx
  have hdb : ∀ c ∈ x, isDollarBrace c = false := by
    intro c hc
    have h4 := identChar_ne c (hchars c hc)
    simp [isDollarBrace, h4.2.1, h4.2.2.1, h4.2.2.2]
  obtain ⟨a, as, rfl⟩ : ∃ a as, x = a :: as := by
    cases x with
    | nil => exact absurd hx (by decide)
    | cons a as => exact ⟨a, as, rfl⟩
  have hda : isDollarBrace a = false := hdb a (List.mem_cons_self _ _)
  have h4a := identChar_ne a (hchars a (List.mem_cons_self _ _))
  unfold varNameOfToken
  have hds : isDollarBrace '$' = true := by decide
  have h1 : ('$' :: a :: as).dropWhile isDollarBrace = a :: as := by
    simp [List.dropWhile_cons, hda, hds]
  rw [h1]
  have h2 : (a :: as).reverse.dropWhile isDollarBrace = (a :: as).reverse := by
    refine dropWhile_eq_self_of_none _ _ ?_
    intro c hc
    exact hdb c (List.mem_reverse.mp hc)
  rw [h2, List.reverse_reverse]
  refine dropWhile_eq_self_of_none _ _ ?_
  intro c hc
  have h4 := identChar_ne c (hchars c hc)
  simp [h4.2.1]

theorem parseVarToken_dollar_ident (x : Str) (hx : identFull x = true) :
    parseVarToken ('$' :: (x ++ ['"'])) = some ('$' :: x) := by
  obtain ⟨a, as, rfl⟩ : ∃ a as, x = a :: as := by
    cases x with
    | nil => exact absurd hx (by decide)
    | cons a as => exact ⟨a, as, rfl⟩
  have ha1 : isIdentStart a = true := by
    simp only [identFull, Bool.and_eq_true] at hx
    exact hx.1
  have h4a := identChar_ne a (identStart_isIdentChar a ha1)
  have hpi : parseIdent ((a :: as) ++ ['"']) = some (a :: as, ['"']) := by
    refine parseIdent_ident_append _ _ hx ?_
    intro c hc
    cases hc
    decide
  simp only [parseVarToken, List.cons_append, headIs]
  rw [List.cons_append] at hpi
  simp [h4a.2.2.1, hpi]

theorem identOptBrace_append_brace (x : Str) (hx : identFull x = true) :
    identOptBrace (x ++ ['}']) = true := by
  unfold identOptBrace
  have hrev : (x ++ ['}']).reverse = '}' :: x.reverse := by simp
  rw [hrev]
  simp [List.reverse_reverse, hx]

theorem varNameOfToken_dollar_brace_ident (x : Str) (hx : identFull x = true) :
    varNameOfToken ('$' :: '{' :: (x ++ ['}'])) = x := by
  have hchars := identFull_mem_identChar x hx
  have hdb : ∀ c ∈ x, isDollarBrace c = false := by
    intro c hc
    have h4 := identChar_ne c (hchars c hc)
    simp [isDollarBrace, h4.2.1, h4.2.2.1, h4.2.2.2]
  obtain ⟨a, as, rfl⟩ : ∃ a as, x = a :: as := by
    cases x with
    | nil => exact absurd hx (by decide)
    | cons a as => exact ⟨a, as, rfl⟩
  have hda : isDollarBrace a = false := hdb a (List.mem_cons_self _ _)
  have hds : isDollarBrace '$' = true := by decide
  have hdl : isDollarBrace '{' = true := by decide
  have hdr : isDollarBrace '}' = true := by decide
  unfold varNameOfToken
  have h1 : ('$' :: '{' :: ((a :: as) ++ ['}'])).dropWhile isDollarBrace
      = (a :: as) ++ ['}'] := by
    simp [List.dropWhile_cons, hds, hdl, hda]
  rw [h1]
  have hrev : ((a :: as) ++ ['}']).reverse = '}' :: (a :: as).reverse := by simp
  rw [hrev]
  have h2core : (a :: as).reverse.dropWhile isDollarBrace = (a :: as).reverse :=
    dropWhile_eq_self_of_none _ _ (fun c hc => hdb c (List.mem_reverse.mp hc))
  have h2 : ('}' :: (a :: as).reverse).dropWhile isDollarBrace
      = (a :: as).reverse := by
    rw [List.dropWhile_cons, if_pos hdr]
    exact h2core
  rw [h2, List.reverse_reverse]
  refine dropWhile_eq_self_of_none _ _ ?_
  intro c hc
  have h4 := identChar_ne c (hchars c hc)
  simp [h4.2.1]

theorem parseVarToken_dollar_brace_ident (x : Str) (hx : identFull x = true) :
    parseVarToken ('$' :: '{' :: (x ++ ['}', '"']))
      = some ('$' :: '{' :: (x ++ ['}'])) := by
  have hpi : parseIdent (x ++ ['}', '"']) = some (x, ['}', '"']) := by
    refine parseIdent_ident_append _ _ hx ?_
    intro c hc
    cases hc
    decide
  simp [parseVarToken, headIs, hpi]

/-! ## Claim theorem: bare variable-token call sites -/

/-- C6: a call whose entire quoted path argument is a bare variable token —
either the `"$name"` shape or the `"${name}"` shape — is captured by the
string-literal rule but excluded as a bare variable token, so it yields no
endpoint there; the same call site still resolves through the unit's
assignment table as a variable reference, emitting one endpoint per recorded
literal. -/
theorem bare_var_call_resolution (lines : List Str) (v : Verb) (x : Str)
    (hx : identFull x = true) :
    (strCaptured ('"' :: '$' :: (x ++ ['"'])) = some ('$' :: x) ∧
     strEndpoint v ('"' :: '$' :: (x ++ ['"'])) = none ∧
     varName ('"' :: '$' :: (x ++ ['"'])) = some x ∧
     load_basecamp_endpoints [⟨lines, [(v, '"' :: '$' :: (x ++ ['"']))]⟩]
       = ((assignedPaths lines x).map (fun p => (methodOf v, p))).toFinset) ∧
    (strCaptured ('"' :: '$' :: '{' :: (x ++ ['}', '"']))
        = some ('$' :: '{' :: (x ++ ['}'])) ∧
     strEndpoint v ('"' :: '$' :: '{' :: (x ++ ['}', '"'])) = none ∧
     varName ('"' :: '$' :: '{' :: (x ++ ['}', '"'])) = some x ∧
     load_basecamp_endpoints
         [⟨lines, [(v, '"' :: '$' :: '{' :: (x ++ ['}', '"']))]⟩]
       = ((assignedPaths lines x).map (fun p => (methodOf v, p))).toFinset) := by
  have hchars := identFull_mem_identChar x hx
  have hne : ∀ c ∈ ('$' :: x), c ≠ '"' := by
    intro c hc
    rcases List.mem_cons.mp hc with rfl | hc
    · decide
    · exact (identChar_ne c (hchars c hc)).1
  have hscan : scanTo '"' ('$' :: (x ++ ['"'])) = some ('$' :: x) := by
    have h := scanTo_append '"' ('$' :: x) hne
    simpa using h
  have hcap : strCaptured ('"' :: '$' :: (x ++ ['"'])) = some ('$' :: x) := by
    simp [strCaptured, hscan]
  have hbare : isBareVar ('$' :: x) = true := by
    simp [isBareVar, identOptBrace, hx]
  have hstr : strEndpoint v ('"' :: '$' :: (x ++ ['"'])) = none := by
    simp [strEndpoint, hcap, hbare]
  have hvar : varName ('"' :: '$' :: (x ++ ['"'])) = some x := by
    simp only [varName]
    rw [parseVarToken_dollar_ident x hx]
    simp [varNameOfToken_dollar_ident x hx]
  have hne2 : ∀ c ∈ ('$' :: '{' :: (x ++ ['}'])), c ≠ '"' := by
    intro c hc
    rcases List.mem_cons.mp hc with rfl | hc
    · decide
    rcases List.mem_cons.mp hc with rfl | hc
    · decide
    rcases List.mem_append.mp hc with hc | hc
    · exact (identChar_ne c (hchars c hc)).1
    · rw [List.mem_singleton] at hc
      subst hc
      decide
  have hscan2 : scanTo '"' ('$' :: '{' :: (x ++ ['}', '"']))
      = some ('$' :: '{' :: (x ++ ['}'])) := by
    have h := scanTo_append '"' ('$' :: '{' :: (x ++ ['}'])) hne2
    simpa using h
  have hcap2 : strCaptured ('"' :: '$' :: '{' :: (x ++ ['}', '"']))
      = some ('$' :: '{' :: (x ++ ['}'])) := by
    simp [strCaptured, hscan2]
  have hbare2 : isBareVar ('$' :: '{' :: (x ++ ['}'])) = true := by
    simp [isBareVar, identOptBrace_append_brace x hx]
  have hstr2 : strEndpoint v ('"' :: '$' :: '{' :: (x ++ ['}', '"'])) = none := by
    simp [strEndpoint, hcap2, hbare2]
  have hvar2 : varName ('"' :: '$' :: '{' :: (x ++ ['}', '"'])) = some x := by
    simp only [varName]
    rw [parseVarToken_dollar_brace_ident x hx]
    simp [varNameOfToken_dollar_brace_ident x hx]
  exact ⟨⟨hcap, hstr, hvar, load_single_var_call lines v _ x hvar hstr⟩,
    ⟨hcap2, hstr2, hvar2, load_single_var_call lines v _ x hvar2 hstr2⟩⟩

/-- Witness for `bare_var_call_resolution`: the variable `FOO`, assigned one
path literal, referenced through both quoted bare token shapes. -/
theorem bare_var_call_resolution_witness :
    identFull (cs "FOO") = true ∧
    ((strCaptured ('"' :: '$' :: (cs "FOO" ++ ['"'])) = some ('$' :: cs "FOO") ∧
      strEndpoint .post ('"' :: '$' :: (cs "FOO" ++ ['"'])) = none ∧
      varName ('"' :: '$' :: (cs "FOO" ++ ['"'])) = some (cs "FOO") ∧
      load_basecamp_endpoints
          [⟨[cs "FOO=\"/u\""], [(.post, '"' :: '$' :: (cs "FOO" ++ ['"']))]⟩]
        = ((assignedPaths [cs "FOO=\"/u\""] (cs "FOO")).map
            (fun p => (methodOf .post, p))).toFinset) ∧
     (strCaptured ('"' :: '$' :: '{' :: (cs "FOO" ++ ['}', '"']))
          = some ('$' :: '{' :: (cs "FOO" ++ ['}'])) ∧
      strEndpoint .post ('"' :: '$' :: '{' :: (cs "FOO" ++ ['}', '"'])) = none ∧
      varName ('"' :: '$' :: '{' :: (cs "FOO" ++ ['}', '"'])) = some (cs "FOO") ∧
      load_basecamp_endpoints
          [⟨[cs "FOO=\"/u\""],
            [(.post, '"' :: '$' :: '{' :: (cs "FOO" ++ ['}', '"']))]⟩]
        = ((assignedPaths [cs "FOO=\"/u\""] (cs "FOO")).map
            (fun p => (methodOf .post, p))).toFinset)) :=
  ⟨by decide, bare_var_call_resolution _ .post _ (by decide)⟩
